import Mathlib

/-!
# Shallow embedding of the `hclust` agglomerative clustering module

This file embeds the two JavaScript source files (`src/hclust.js` and the
unnamed variant that adds the variance/elbow helpers) into Lean.  Numbers are
modelled as exact rationals (`ℚ`); a JavaScript division whose denominator is
zero produces `NaN`/`Infinity`, i.e. a non-real value, which we model with
`Option ℚ` (`none` = not a real number).  `Math.sqrt` is modelled with
`Real.sqrt`.  Arrays are Lean lists; out-of-range reads use `getD` defaults
(all in-range uses are proved in range).  The progress callback of the unnamed
variant is side-effect-only, so the sequence of values it receives is modelled
as an explicit list (`progressSequence`).
-/

/-- JavaScript division restricted to the question "is the result a real
number": dividing by zero yields `NaN` or `±Infinity` (never a real), which we
model as `none`. -/
def jsDiv (x y : ℚ) : Option ℚ :=
  if y = 0 then none else some (x / y)

/-- Matrix cell read `M[i][j]` on a list-of-lists matrix. -/
def mGet (M : List (List ℚ)) (i j : ℕ) : ℚ :=
  (M.getD i []).getD j 0

/-- The loop part of `euclideanDistance`: `sum += (a[i] - b[i])^2` for
`i < min a.length b.length` (the source truncates to the shorter vector). -/
def euclideanSum (a b : List ℚ) : ℚ :=
  ((List.range (min a.length b.length)).map
    (fun i => (a.getD i 0 - b.getD i 0) * (a.getD i 0 - b.getD i 0))).sum

/-- Source function `euclideanDistance(a, b)`: `Math.sqrt` of the summed
squared differences over the shared prefix. -/
noncomputable def euclideanDistance (a b : List ℚ) : ℝ :=
  Real.sqrt ((euclideanSum a b : ℚ) : ℝ)

/-- Source function `averageDistance(setA, setB, distances)`: the accumulated
double-loop sum `distance`, then `distance / setA.length / setB.length` with
JavaScript division (zero-length sets give a non-real result, `none`). -/
def averageDistance (setA setB : List ℕ) (distances : List (List ℚ)) : Option ℚ :=
  let total := (setA.map (fun a => (setB.map (fun b => mGet distances a b)).sum)).sum
  (jsDiv total (setA.length : ℚ)).bind (fun t => jsDiv t (setB.length : ℚ))

/-- A dendrogram node: `height`, `indexes`, `children` as in the source's
cluster objects (singletons carry no children). -/
inductive Cluster where
  | mk (height : ℚ) (indexes : List ℕ) (children : List Cluster)

/-- Accessor for `cluster.height`. -/
def Cluster.height : Cluster → ℚ
  | .mk h _ _ => h

/-- Accessor for `cluster.indexes`. -/
def Cluster.indexes : Cluster → List ℕ
  | .mk _ i _ => i

/-- Accessor for `cluster.children`. -/
def Cluster.children : Cluster → List Cluster
  | .mk _ _ c => c

/-- Placeholder cluster used as the `getD` default (never selected by an
in-range read). -/
def emptyCluster : Cluster := .mk 0 [] []

instance : Inhabited Cluster := ⟨emptyCluster⟩

/-- The read `clusters[i].indexes`. -/
def clusterIndexesAt (clusters : List Cluster) (i : ℕ) : List ℕ :=
  (clusters.getD i emptyCluster).indexes

/-- Strict row-major (lexicographic) order on index pairs: the order in which
the source's `for (row …) for (col = row+1 …)` double loop visits pairs. -/
def lexLt (p q : ℕ × ℕ) : Prop :=
  p.1 < q.1 ∨ (p.1 = q.1 ∧ p.2 < q.2)

/-- All unordered pairs `(row, col)` with `row < col < n`, in the row-major
visit order of the source's upper-triangular double loop. -/
def scanPairs (n : ℕ) : List (ℕ × ℕ) :=
  (List.range n).flatMap
    (fun row => (List.range' (row + 1) (n - (row + 1))).map (fun col => (row, col)))

/-- One fold step of the pair scan: a pair replaces the current candidate
exactly when its value is strictly smaller (`if (distance < nearestDistance)`);
the `Infinity` initialisation of `nearestDistance` is modelled by the `none`
accumulator, which every rational value beats. -/
def updateNearest (f : ℕ × ℕ → ℚ) (acc : Option (ℚ × (ℕ × ℕ))) (rc : ℕ × ℕ) :
    Option (ℚ × (ℕ × ℕ)) :=
  match acc with
  | none => some (f rc, rc)
  | some (best, brc) => if f rc < best then some (f rc, rc) else some (best, brc)

/-- The source's upper-triangular scan for the nearest pair of live clusters:
fold the row-major pair list, keeping the strictly smallest linkage value. -/
def findNearest (lk : List ℕ → List ℕ → ℚ) (clusters : List Cluster) :
    Option (ℚ × (ℕ × ℕ)) :=
  (scanPairs clusters.length).foldl
    (updateNearest (fun rc => lk (clusterIndexesAt clusters rc.1) (clusterIndexesAt clusters rc.2)))
    none

/-- One merge iteration of the source's loop body: find the nearest pair,
build the merged cluster (`indexes` = row indexes ++ col indexes, `height` =
selected linkage value, `children` = the two merged clusters), splice out the
higher positional index first, then the lower, and push the new cluster.  The
`none` branch (no pair at all) only arises with fewer than two live clusters,
where the source never merges. -/
def mergeStep (lk : List ℕ → List ℕ → ℚ) (clusters : List Cluster) : List Cluster :=
  match findNearest lk clusters with
  | none => clusters
  | some (d, rc) =>
    let newCluster : Cluster :=
      .mk d (clusterIndexesAt clusters rc.1 ++ clusterIndexesAt clusters rc.2)
        [clusters.getD rc.1 emptyCluster, clusters.getD rc.2 emptyCluster]
    ((clusters.eraseIdx (max rc.1 rc.2)).eraseIdx (min rc.1 rc.2)) ++ [newCluster]

/-- The source's `for (iteration …)` loop, indexed by the remaining number of
iterations (`remaining = data.length - iteration`): push the current tree
slice, break when only one cluster is left, otherwise merge and continue.
Returns the final working collection and the pushed slices in push order. -/
def clusterLoop (lk : List ℕ → List ℕ → ℚ) :
    ℕ → List Cluster → List Cluster × List (List (List ℕ))
  | 0, clusters => (clusters, [])
  | remaining + 1, clusters =>
    let slice := clusters.map Cluster.indexes
    if remaining = 0 then (clusters, [slice])
    else
      let rest := clusterLoop lk remaining (mergeStep lk clusters)
      (rest.1, slice :: rest.2)

/-- The record returned by `clusterData`. -/
structure ClusterResult where
  clusters : Cluster
  distances : List (List ℚ)
  order : List ℕ
  clustersGivenK : List (List (List ℕ))

/-- Source function `clusterData` (vectors already extracted, i.e. the default
`key = ''` path): build the full N×N distance matrix, initialise singleton
clusters, run the merge loop, and assemble `clustersGivenK` as
`[[], ...slices.reverse()]`.  The final `clusters[0].indexes` read throws a
`TypeError` in JavaScript when the working collection is empty (N = 0); that
failure is modelled as `none`. -/
def clusterData (data : List (List ℚ)) (dist : List ℚ → List ℚ → ℚ)
    (lk : List ℕ → List ℕ → List (List ℚ) → ℚ) : Option ClusterResult :=
  let distances := data.map (fun datum => data.map (fun otherDatum => dist datum otherDatum))
  let clusters := (List.range data.length).map (fun index => Cluster.mk 0 [index] [])
  let looped := clusterLoop (fun a b => lk a b distances) data.length clusters
  let clustersGivenK := [] :: looped.2.reverse
  match looped.1 with
  | [] => none
  | c :: _ => some ⟨c, distances, c.indexes, clustersGivenK⟩

/-- Source function `calculateDistance(point1, point2, distances)` of the unnamed variant. -/
def calculateDistance (point1 point2 : ℕ) (distances : List (List ℚ)) : ℚ :=
  mGet distances point1 point2

/-- Source function `calculateClusterVariance(cluster, distances)` of the unnamed variant:
`0` for clusters with at most one member, otherwise the sum of the distances
over all pairs `i < j` of member positions divided by the pair count. -/
def calculateClusterVariance (cluster : List ℕ) (distances : List (List ℚ)) : ℚ :=
  if cluster.length ≤ 1 then 0
  else
    ((scanPairs cluster.length).map
      (fun ij => calculateDistance (cluster.getD ij.1 0) (cluster.getD ij.2 0) distances)).sum
      / ((scanPairs cluster.length).length : ℚ)

/-- Source function `calculateWithinClusterVariance(clustersGivenK, distances, K)` of the
unnamed variant: `null` when `K <= 0 || K >= clustersGivenK.length`, otherwise
the sum of the per-cluster variances at level `K`. -/
def calculateWithinClusterVariance (clustersGivenK : List (List (List ℕ)))
    (distances : List (List ℚ)) (K : ℕ) : Option ℚ :=
  if K = 0 ∨ clustersGivenK.length ≤ K then none
  else some (((clustersGivenK.getD K []).map
    (fun cluster => calculateClusterVariance cluster distances)).sum)

/-- The numerator of the source's point-to-line expression inside
`findElbowPoint`:
`(lastPoint[1]-firstPoint[1])*currentPoint[0] - (lastPoint[0]-firstPoint[0])*currentPoint[1]
 + lastPoint[0]*firstPoint[1] - lastPoint[1]*firstPoint[0]`
with `firstPoint = [1, variances[0]]`, `lastPoint = [nPoints, variances[nPoints-1]]`,
`currentPoint = [i, variances[i-1]]`. -/
def elbowNum (variances : List ℚ) (i : ℕ) : ℚ :=
  let n : ℚ := (variances.length : ℚ)
  let vF : ℚ := variances.getD 0 0
  let vL : ℚ := variances.getD (variances.length - 1) 0
  (vL - vF) * (i : ℚ) - (n - 1) * variances.getD (i - 1) 0 + n * vF - vL * 1

/-- The full per-point distance computed inside `findElbowPoint`'s loop:
`Math.abs(numerator) / euclideanDistance(firstPoint, lastPoint)` — the
perpendicular distance of `(i, variances[i-1])` to the line through the first
and last variance points (the standard two-point line formula). -/
noncomputable def elbowDistance (variances : List ℚ) (i : ℕ) : ℝ :=
  |((elbowNum variances i : ℚ) : ℝ)| /
    euclideanDistance [1, variances.getD 0 0]
      [(variances.length : ℚ), variances.getD (variances.length - 1) 0]

/-- Source function `findElbowPoint(variances)` of the unnamed variant: scan `i` from `2` to
`nPoints`, keeping the point with the strictly largest distance to the
first-to-last line (`maxDistance` starts at `0`, `elbowPoint` starts at `1`). -/
noncomputable def findElbowPoint (variances : List ℚ) : ℕ :=
  ((List.range' 2 (variances.length - 1)).foldl
    (fun acc i =>
      if elbowDistance variances i > acc.1 then (elbowDistance variances i, i) else acc)
    ((0 : ℝ), 1)).2

/-- One value handed to `updateProgress(stepNumber, stepProgress, onProgress)`
in the unnamed variant: `stepNumber / 2 + stepProgress / 2`, with a non-real
`stepProgress` (`NaN`) propagating to a non-real progress value. -/
def updateProgressVal (stepNumber : ℕ) (stepProgress : Option ℚ) : Option ℚ :=
  stepProgress.map (fun sp => (stepNumber : ℚ) / 2 + sp / 2)

/-- Modelled from the unnamed variant's `clusterData`: the exact sequence of
values its two `updateProgress` call sites pass to `onProgress` for an input
of `N` records — `updateProgress(0, index / (data.length - 1))` once per
matrix row, then `updateProgress(1, (iteration + 1) / data.length)` once per
loop iteration (including the final break iteration).  `none` marks a
non-real (`NaN`) value, which arises from `0 / 0` when `N = 1`. -/
def progressSequence (N : ℕ) : List (Option ℚ) :=
  ((List.range N).map (fun (index : ℕ) =>
      updateProgressVal 0 (jsDiv (index : ℚ) ((N : ℚ) - 1))))
    ++ ((List.range N).map (fun (iteration : ℕ) =>
      updateProgressVal 1 (jsDiv ((iteration : ℚ) + 1) (N : ℚ))))

/-- A concrete two-record input used to instantiate the theorems below. -/
def dataEx : List (List ℚ) := [[0], [0]]

/-- A concrete pairwise metric for the instantiations. -/
def distEx : List ℚ → List ℚ → ℚ := fun _ _ => 0

/-- A concrete linkage function for the instantiations. -/
def lkEx : List ℕ → List ℕ → List (List ℚ) → ℚ := fun _ _ _ => 1

/-- The result `clusterData` computes on `dataEx` with `distEx` and `lkEx`. -/
def resEx : ClusterResult :=
  ⟨Cluster.mk 1 [0, 1] [Cluster.mk 0 [0] [], Cluster.mk 0 [1] []],
    [[0, 0], [0, 0]], [0, 1], [[], [[0, 1]], [[0], [1]]]⟩

/-- A concrete two-singleton working collection for the instantiations. -/
def clustersEx : List Cluster := [Cluster.mk 0 [0] [], Cluster.mk 0 [1] []]

/-- A concrete linkage on index sets for the instantiations. -/
def lkPairEx : List ℕ → List ℕ → ℚ := fun _ _ => 0

/-! ## Helper lemmas: the pair scan -/

lemma mem_scanPairs {n : ℕ} {p : ℕ × ℕ} : p ∈ scanPairs n ↔ p.1 < p.2 ∧ p.2 < n := by
  obtain ⟨r, c⟩ := p
  simp only [scanPairs, List.mem_flatMap, List.mem_map, List.mem_range, List.mem_range'_1]
  constructor
  · rintro ⟨row, hrow, col, ⟨hc1, hc2⟩, heq⟩
    obtain ⟨h1, h2⟩ := Prod.mk.injEq .. ▸ heq
    subst h1; subst h2
    exact ⟨hc1, by omega⟩
  · rintro ⟨hrc, hcn⟩
    exact ⟨r, by omega, c, ⟨by omega, by omega⟩, rfl⟩

lemma pairwise_flatMap {α β : Type} {R : β → β → Prop} {S : α → α → Prop} {g : α → List β} :
    ∀ {l : List α}, l.Pairwise S → (∀ a, (g a).Pairwise R) →
      (∀ a b, S a b → ∀ x ∈ g a, ∀ y ∈ g b, R x y) → (l.flatMap g).Pairwise R := by
  intro l
  induction l with
  | nil => intro _ _ _; simp
  | cons a t ih =>
    intro hp hg hc
    rw [List.flatMap_cons, List.pairwise_append]
    refine ⟨hg a, ih (List.pairwise_cons.mp hp).2 hg hc, ?_⟩
    intro x hx y hy
    rw [List.mem_flatMap] at hy
    obtain ⟨b, hb, hyb⟩ := hy
    exact hc a b ((List.pairwise_cons.mp hp).1 b hb) x hx y hyb

lemma pairwise_scanPairs (n : ℕ) : (scanPairs n).Pairwise lexLt := by
  refine pairwise_flatMap (List.pairwise_lt_range n) ?_ ?_
  · intro row
    rw [List.pairwise_map]
    exact (List.pairwise_lt_range' _ _).imp (fun h => Or.inr ⟨rfl, h⟩)
  · intro a b hab x hx y hy
    simp only [List.mem_map] at hx hy
    obtain ⟨cx, _, hxe⟩ := hx
    obtain ⟨cy, _, hye⟩ := hy
    subst hxe; subst hye
    exact Or.inl hab

lemma scanPairs_nonempty {n : ℕ} (h : 2 ≤ n) : (0, 1) ∈ scanPairs n :=
  mem_scanPairs.mpr ⟨Nat.zero_lt_one, h⟩

lemma list_range_map_sum {M : Type} [AddCommMonoid M] (g : ℕ → M) (n : ℕ) :
    ((List.range n).map g).sum = ∑ i ∈ Finset.range n, g i := by
  induction n with
  | zero => simp
  | succ m ih =>
    rw [List.range_succ, List.map_append, List.sum_append, Finset.sum_range_succ, ih]
    simp

lemma length_scanPairs (n : ℕ) : (scanPairs n).length = n.choose 2 := by
  have h1 : (scanPairs n).length = ∑ row ∈ Finset.range n, (n - (row + 1)) := by
    simp only [scanPairs, List.length_flatMap, Function.comp_def, List.length_map,
      List.length_range']
    exact list_range_map_sum (fun row => n - (row + 1)) n
  have h2 : ∑ row ∈ Finset.range n, (n - (row + 1)) = ∑ row ∈ Finset.range n, row := by
    have := Finset.sum_range_reflect (fun j => j) n
    simp only at this
    rw [← this]
    exact Finset.sum_congr rfl (fun x hx => by rw [Finset.mem_range] at hx; omega)
  have h3 := Finset.sum_range_id_mul_two n
  rw [h1, h2, Nat.choose_two_right]
  omega

/-! ## Helper lemmas: the strictly-smaller fold keeps the first minimum -/

lemma foldl_updateNearest_some (f : ℕ × ℕ → ℚ) :
    ∀ (l : List (ℕ × ℕ)) (d₀ : ℚ) (p₀ : ℕ × ℕ),
      ∃ d p, l.foldl (updateNearest f) (some (d₀, p₀)) = some (d, p) ∧
        ((d = d₀ ∧ p = p₀ ∧ ∀ q ∈ l, d₀ ≤ f q) ∨
          (∃ l₁ l₂, l = l₁ ++ p :: l₂ ∧ d = f p ∧ d < d₀ ∧
            (∀ q ∈ l₁, d < f q) ∧ (∀ q ∈ l₂, d ≤ f q))) := by
  intro l
  induction l with
  | nil =>
    intro d₀ p₀
    exact ⟨d₀, p₀, rfl, Or.inl ⟨rfl, rfl, by simp⟩⟩
  | cons a t ih =>
    intro d₀ p₀
    rw [List.foldl_cons]
    by_cases h : f a < d₀
    · have hstep : updateNearest f (some (d₀, p₀)) a = some (f a, a) := by
        simp [updateNearest, h]
      rw [hstep]
      obtain ⟨d, p, heq, hcase⟩ := ih (f a) a
      refine ⟨d, p, heq, Or.inr ?_⟩
      rcases hcase with ⟨hd, hp, hall⟩ | ⟨l₁, l₂, hsplit, hd, hlt, h₁, h₂⟩
      · subst hd; subst hp
        exact ⟨[], t, rfl, rfl, h, by simp, hall⟩
      · refine ⟨a :: l₁, l₂, by rw [hsplit]; rfl, hd, lt_trans hlt h, ?_, h₂⟩
        intro q hq
        rcases List.mem_cons.mp hq with hq | hq
        · subst hq; exact hlt
        · exact h₁ q hq
    · have hstep : updateNearest f (some (d₀, p₀)) a = some (d₀, p₀) := by
        simp [updateNearest, h]
      rw [hstep]
      obtain ⟨d, p, heq, hcase⟩ := ih d₀ p₀
      refine ⟨d, p, heq, ?_⟩
      rcases hcase with ⟨hd, hp, hall⟩ | ⟨l₁, l₂, hsplit, hd, hlt, h₁, h₂⟩
      · refine Or.inl ⟨hd, hp, ?_⟩
        intro q hq
        rcases List.mem_cons.mp hq with hq | hq
        · subst hq; exact not_lt.mp h
        · exact hall q hq
      · refine Or.inr ⟨a :: l₁, l₂, by rw [hsplit]; rfl, hd, hlt, ?_, h₂⟩
        intro q hq
        rcases List.mem_cons.mp hq with hq | hq
        · subst hq; exact lt_of_lt_of_le hlt (not_lt.mp h)
        · exact h₁ q hq

lemma foldl_updateNearest_none (f : ℕ × ℕ → ℚ) (l : List (ℕ × ℕ)) (hne : l ≠ []) :
    ∃ d p l₁ l₂, l.foldl (updateNearest f) none = some (d, p) ∧
      l = l₁ ++ p :: l₂ ∧ d = f p ∧ (∀ q ∈ l₁, d < f q) ∧ (∀ q ∈ l₂, d ≤ f q) := by
  obtain ⟨a, t, rfl⟩ := List.exists_cons_of_ne_nil hne
  rw [List.foldl_cons]
  have hstep : updateNearest f none a = some (f a, a) := rfl
  rw [hstep]
  obtain ⟨d, p, heq, hcase⟩ := foldl_updateNearest_some f t (f a) a
  rcases hcase with ⟨hd, hp, hall⟩ | ⟨l₁, l₂, hsplit, hd, hlt, h₁, h₂⟩
  · refine ⟨d, p, [], t, heq, ?_, ?_, by simp, ?_⟩
    · rw [hp, List.nil_append]
    · rw [hd, hp]
    · intro q hq
      rw [hd]
      exact hall q hq
  · refine ⟨d, p, a :: l₁, l₂, heq, by rw [hsplit]; rfl, hd, ?_, h₂⟩
    intro q hq
    rcases List.mem_cons.mp hq with hq | hq
    · subst hq; exact hlt
    · exact h₁ q hq

/-- Full specification of the source's nearest-pair scan: with at least two
live clusters it returns `some (d, (r, c))` where `r < c < length`, `d` is the
linkage value of that pair, `d` is minimal over all scanned pairs, and the
selected pair is the first one (in row-major scan order) attaining `d`. -/
lemma findNearest_spec (lk : List ℕ → List ℕ → ℚ) (clusters : List Cluster)
    (h2 : 2 ≤ clusters.length) :
    ∃ r c, r < c ∧ c < clusters.length ∧
      findNearest lk clusters =
        some (lk (clusterIndexesAt clusters r) (clusterIndexesAt clusters c), (r, c)) ∧
      (∀ r' c', r' < c' → c' < clusters.length →
        lk (clusterIndexesAt clusters r) (clusterIndexesAt clusters c) ≤
          lk (clusterIndexesAt clusters r') (clusterIndexesAt clusters c')) ∧
      (∀ r' c', r' < c' → c' < clusters.length →
        lk (clusterIndexesAt clusters r') (clusterIndexesAt clusters c') =
          lk (clusterIndexesAt clusters r) (clusterIndexesAt clusters c) →
        (r' = r ∧ c' = c) ∨ lexLt (r, c) (r', c')) := by
  set f : ℕ × ℕ → ℚ :=
    fun rc => lk (clusterIndexesAt clusters rc.1) (clusterIndexesAt clusters rc.2) with hf
  have hne : scanPairs clusters.length ≠ [] :=
    List.ne_nil_of_mem (scanPairs_nonempty h2)
  obtain ⟨d, p, l₁, l₂, heq, hsplit, hd, h₁, h₂⟩ :=
    foldl_updateNearest_none f (scanPairs clusters.length) hne
  have hpmem : p ∈ scanPairs clusters.length := by
    rw [hsplit]; exact List.mem_append_right l₁ (List.mem_cons_self p l₂)
  obtain ⟨hrc, hcn⟩ := mem_scanPairs.mp hpmem
  have hmin : ∀ q ∈ scanPairs clusters.length, d ≤ f q := by
    intro q hq
    rw [hsplit] at hq
    rcases List.mem_append.mp hq with hq | hq
    · exact le_of_lt (h₁ q hq)
    · rcases List.mem_cons.mp hq with hq | hq
      · subst hq; exact le_of_eq hd
      · exact h₂ q hq
  have hpw := pairwise_scanPairs clusters.length
  rw [hsplit, List.pairwise_append] at hpw
  have hfirst : ∀ q ∈ scanPairs clusters.length, f q = d → q = p ∨ lexLt p q := by
    intro q hq hfq
    rw [hsplit] at hq
    rcases List.mem_append.mp hq with hq | hq
    · exact absurd hfq (ne_of_gt (h₁ q hq))
    · rcases List.mem_cons.mp hq with hq | hq
      · exact Or.inl hq
      · exact Or.inr ((List.pairwise_cons.mp hpw.2.1).1 q hq)
  obtain ⟨r, c⟩ := p
  refine ⟨r, c, hrc, hcn, ?_, ?_, ?_⟩
  · show (scanPairs clusters.length).foldl (updateNearest f) none =
      some (lk (clusterIndexesAt clusters r) (clusterIndexesAt clusters c), (r, c))
    rw [heq, hd]
  · intro r' c' hlt hcl
    have h := hmin (r', c') (mem_scanPairs.mpr ⟨hlt, hcl⟩)
    rw [hd] at h
    exact h
  · intro r' c' hlt hcl hfeq
    have hfd : f (r', c') = d := by
      rw [hd]
      exact hfeq
    rcases hfirst (r', c') (mem_scanPairs.mpr ⟨hlt, hcl⟩) hfd with h | h
    · injection h with h1 h2
      exact Or.inl ⟨h1, h2⟩
    · exact Or.inr h

/-! ## Helper lemmas: splicing two clusters and appending their merge -/

lemma getD_map {α β : Type} (f : α → β) (l : List α) (i : ℕ) (d : α) :
    (l.map f).getD i (f d) = f (l.getD i d) := by
  induction l generalizing i with
  | nil => simp
  | cons a t ih =>
    cases i with
    | zero => rfl
    | succ j => simp [ih j]

lemma map_eraseIdx {α β : Type} (f : α → β) (l : List α) (i : ℕ) :
    (l.eraseIdx i).map f = (l.map f).eraseIdx i := by
  induction l generalizing i with
  | nil => simp
  | cons a t ih =>
    cases i with
    | zero => rfl
    | succ j => simp [List.eraseIdx_cons_succ, ih]

lemma flatten_map_singleton (l : List ℕ) : (l.map (fun i => [i])).flatten = l := by
  induction l with
  | nil => rfl
  | cons a t ih => simp [ih]

lemma flatten_erase_one_perm :
    ∀ (t : List (List ℕ)) (c : ℕ), c < t.length →
      ((t.eraseIdx c).flatten ++ t.getD c []).Perm t.flatten := by
  intro t
  induction t with
  | nil => intro c hc; simp at hc
  | cons b t' ih =>
    intro c hc
    cases c with
    | zero =>
      simp only [List.eraseIdx_cons_zero, List.getD_cons_zero, List.flatten_cons]
      exact List.perm_append_comm
    | succ j =>
      simp only [List.eraseIdx_cons_succ, List.flatten_cons, List.getD_cons_succ]
      rw [List.append_assoc]
      exact (ih j (by simpa using hc)).append_left b

lemma flatten_erase_pair_perm :
    ∀ (L : List (List ℕ)) (r c : ℕ), r < c → c < L.length →
      ((((L.eraseIdx c).eraseIdx r) ++ [L.getD r [] ++ L.getD c []]).flatten).Perm L.flatten := by
  intro L
  induction L with
  | nil => intro r c _ hc; simp at hc
  | cons a t ih =>
    intro r c hrc hc
    cases c with
    | zero => omega
    | succ j =>
      have hj : j < t.length := by simpa using hc
      cases r with
      | zero =>
        simp only [List.eraseIdx_cons_succ, List.eraseIdx_cons_zero, List.getD_cons_zero,
          List.getD_cons_succ, List.flatten_cons, List.flatten_append, List.flatten_nil,
          List.append_nil]
        rw [← List.append_assoc]
        refine (List.perm_append_comm.append_right (t.getD j [])).trans ?_
        rw [List.append_assoc]
        exact (flatten_erase_one_perm t j hj).append_left a
      | succ i =>
        simp only [List.eraseIdx_cons_succ, List.getD_cons_succ, List.flatten_cons]
        exact (ih i j (by omega) hj).append_left a

/-- Everything `findNearest_spec` gives, plus the explicit shape of the merge
result: splice out the two selected rows and push the merged cluster. -/
lemma mergeStep_spec (lk : List ℕ → List ℕ → ℚ) (clusters : List Cluster)
    (h2 : 2 ≤ clusters.length) :
    ∃ r c, r < c ∧ c < clusters.length ∧
      findNearest lk clusters =
        some (lk (clusterIndexesAt clusters r) (clusterIndexesAt clusters c), (r, c)) ∧
      (∀ r' c', r' < c' → c' < clusters.length →
        lk (clusterIndexesAt clusters r) (clusterIndexesAt clusters c) ≤
          lk (clusterIndexesAt clusters r') (clusterIndexesAt clusters c')) ∧
      (∀ r' c', r' < c' → c' < clusters.length →
        lk (clusterIndexesAt clusters r') (clusterIndexesAt clusters c') =
          lk (clusterIndexesAt clusters r) (clusterIndexesAt clusters c) →
        (r' = r ∧ c' = c) ∨ lexLt (r, c) (r', c')) ∧
      mergeStep lk clusters =
        ((clusters.eraseIdx c).eraseIdx r) ++
          [Cluster.mk (lk (clusterIndexesAt clusters r) (clusterIndexesAt clusters c))
            (clusterIndexesAt clusters r ++ clusterIndexesAt clusters c)
            [clusters.getD r emptyCluster, clusters.getD c emptyCluster]] := by
  obtain ⟨r, c, hrc, hcn, heq, hmin, hfirst⟩ := findNearest_spec lk clusters h2
  refine ⟨r, c, hrc, hcn, heq, hmin, hfirst, ?_⟩
  rw [mergeStep, heq]
  have hmax : max r c = c := max_eq_right (le_of_lt hrc)
  have hmin' : min r c = r := min_eq_left (le_of_lt hrc)
  simp only [hmax, hmin']

lemma mergeStep_length (lk : List ℕ → List ℕ → ℚ) (clusters : List Cluster)
    (h2 : 2 ≤ clusters.length) :
    (mergeStep lk clusters).length = clusters.length - 1 := by
  obtain ⟨r, c, hrc, hcn, -, -, -, hms⟩ := mergeStep_spec lk clusters h2
  have hlen1 : (clusters.eraseIdx c).length = clusters.length - 1 := by
    rw [List.length_eraseIdx]
    simp [hcn]
  have hlen2 : ((clusters.eraseIdx c).eraseIdx r).length = clusters.length - 1 - 1 := by
    rw [List.length_eraseIdx, hlen1]
    have hr : r < clusters.length - 1 := by omega
    simp [hr]
  rw [hms, List.length_append, hlen2]
  simp only [List.length_cons, List.length_nil]
  omega

lemma mergeStep_flatten_perm (lk : List ℕ → List ℕ → ℚ) (clusters : List Cluster)
    (h2 : 2 ≤ clusters.length) :
    (((mergeStep lk clusters).map Cluster.indexes).flatten).Perm
      ((clusters.map Cluster.indexes).flatten) := by
  obtain ⟨r, c, hrc, hcn, -, -, -, hms⟩ := mergeStep_spec lk clusters h2
  rw [hms]
  have hidx : ∀ i, clusterIndexesAt clusters i = (clusters.map Cluster.indexes).getD i [] := by
    intro i
    rw [clusterIndexesAt]
    exact (getD_map Cluster.indexes clusters i emptyCluster).symm
  rw [List.map_append, map_eraseIdx, map_eraseIdx]
  simp only [List.map_cons, List.map_nil, Cluster.indexes]
  rw [hidx r, hidx c]
  exact flatten_erase_pair_perm (clusters.map Cluster.indexes) r c hrc
    (by rw [List.length_map]; exact hcn)

/-! ## Helper lemmas: the merge loop -/

/-- Master invariant of the source's iteration loop, by downward induction on
the remaining iteration count (`n` = current number of live clusters):
the loop pushes exactly `n` slices; slice `i` has `n - i` index sets whose
concatenation is a permutation of the initial concatenation; the first pushed
slice is the starting collection; and the loop terminates with a single final
cluster whose `indexes` form the last pushed slice. -/
lemma clusterLoop_spec (lk : List ℕ → List ℕ → ℚ) :
    ∀ (n : ℕ) (clusters : List Cluster), clusters.length = n →
      ((clusterLoop lk n clusters).2.length = n) ∧
      (∀ i, i < n → ((clusterLoop lk n clusters).2.getD i []).length = n - i ∧
        (((clusterLoop lk n clusters).2.getD i []).flatten).Perm
          ((clusters.map Cluster.indexes).flatten)) ∧
      (1 ≤ n → (clusterLoop lk n clusters).2.getD 0 [] = clusters.map Cluster.indexes ∧
        ∃ c, (clusterLoop lk n clusters).1 = [c] ∧
          (clusterLoop lk n clusters).2.getD (n - 1) [] = [c.indexes]) := by
  intro n
  induction n with
  | zero =>
    intro clusters _
    refine ⟨rfl, ?_, ?_⟩
    · intro i hi
      exact absurd hi (Nat.not_lt_zero i)
    · intro h1
      exact absurd h1 (by norm_num)
  | succ m ih =>
    intro clusters hlen
    cases m with
    | zero =>
      have hone : clusterLoop lk 1 clusters = (clusters, [clusters.map Cluster.indexes]) := rfl
      obtain ⟨c, hc⟩ := List.length_eq_one.mp hlen
      refine ⟨by rw [hone]; rfl, ?_, ?_⟩
      · intro i hi
        have hi0 : i = 0 := by omega
        subst hi0
        rw [hone]
        refine ⟨?_, List.Perm.refl _⟩
        simp [hc]
      · intro _
        rw [hone]
        exact ⟨rfl, c, hc, by rw [hc]; rfl⟩
    | succ k =>
      have h2 : 2 ≤ clusters.length := by omega
      have hstep : clusterLoop lk (k + 1 + 1) clusters =
          ((clusterLoop lk (k + 1) (mergeStep lk clusters)).1,
            clusters.map Cluster.indexes ::
              (clusterLoop lk (k + 1) (mergeStep lk clusters)).2) := by
        rw [clusterLoop]
        simp
      have hmslen : (mergeStep lk clusters).length = k + 1 := by
        rw [mergeStep_length lk clusters h2, hlen]
        omega
      obtain ⟨ihlen, ihent, ihfin⟩ := ih (mergeStep lk clusters) hmslen
      refine ⟨?_, ?_, ?_⟩
      · rw [hstep]
        simp [ihlen]
      · intro i hi
        cases i with
        | zero =>
          rw [hstep]
          refine ⟨?_, List.Perm.refl _⟩
          simp [hlen]
        | succ j =>
          have hj : j < k + 1 := by omega
          obtain ⟨hjlen, hjperm⟩ := ihent j hj
          rw [hstep]
          refine ⟨?_, ?_⟩
          · simp only [List.getD_cons_succ]
            rw [hjlen]
            omega
          · simp only [List.getD_cons_succ]
            exact hjperm.trans (mergeStep_flatten_perm lk clusters h2)
      · intro _
        obtain ⟨c, hc1, hc2⟩ := (ihfin (by omega)).2
        rw [hstep]
        refine ⟨rfl, c, hc1, ?_⟩
        simp only [Nat.add_sub_cancel, List.getD_cons_succ]
        rw [← hc2]
        norm_num

lemma getD_cons_pos {α : Type} (a : α) (l : List α) (i : ℕ) (d : α) (h : 1 ≤ i) :
    (a :: l).getD i d = l.getD (i - 1) d := by
  obtain ⟨j, rfl⟩ : ∃ j, i = j + 1 := ⟨i - 1, by omega⟩
  rfl

lemma getD_reverse {α : Type} (l : List α) (j : ℕ) (d : α) (h : j < l.length) :
    l.reverse.getD j d = l.getD (l.length - 1 - j) d := by
  rw [List.getD_eq_getElem _ _ (by simpa using h), List.getElem_reverse,
    List.getD_eq_getElem _ _ (by omega)]

lemma initial_map_indexes (N : ℕ) :
    (((List.range N).map (fun index => Cluster.mk 0 [index] [])).map Cluster.indexes) =
      (List.range N).map (fun i => [i]) := by
  rw [List.map_map]
  rfl

/-- Unpacked description of a successful `clusterData` run: the input was
non-empty, and `clustersGivenK` has `N + 1` entries, entry `0` empty, entry
`K` (for `1 ≤ K ≤ N`) holding exactly `K` index sets whose concatenation is a
permutation of `0..N-1`, and entry `N` the initial singleton slice. -/
lemma clusterData_table (data : List (List ℚ)) (dist : List ℚ → List ℚ → ℚ)
    (lk : List ℕ → List ℕ → List (List ℚ) → ℚ) (res : ClusterResult)
    (hres : clusterData data dist lk = some res) :
    1 ≤ data.length ∧
    res.clustersGivenK.length = data.length + 1 ∧
    res.clustersGivenK.getD 0 [] = [] ∧
    (∀ K, 1 ≤ K → K ≤ data.length →
      (res.clustersGivenK.getD K []).length = K ∧
      ((res.clustersGivenK.getD K []).flatten).Perm (List.range data.length)) ∧
    res.clustersGivenK.getD data.length [] =
      (List.range data.length).map (fun i => [i]) := by
  have hN1 : 1 ≤ data.length := by
    by_contra h
    have h0 : data.length = 0 := by omega
    have hdata : data = [] := List.length_eq_zero.mp h0
    subst hdata
    simp [clusterData, clusterLoop] at hres
  have hcl0len :
      ((List.range data.length).map (fun index => Cluster.mk 0 [index] [])).length =
        data.length := by
    rw [List.length_map, List.length_range]
  obtain ⟨hslen, hent, hfin⟩ :=
    clusterLoop_spec
      (fun a b => lk a b (data.map (fun datum => data.map (fun otherDatum => dist datum otherDatum))))
      data.length ((List.range data.length).map (fun index => Cluster.mk 0 [index] [])) hcl0len
  obtain ⟨hget0, c, hc1, hc2⟩ := hfin hN1
  simp only [clusterData] at hres
  rw [hc1] at hres
  simp only [Option.some.injEq] at hres
  have htab : res.clustersGivenK =
      [] :: (clusterLoop
        (fun a b => lk a b (data.map (fun datum => data.map (fun otherDatum => dist datum otherDatum))))
        data.length ((List.range data.length).map (fun index => Cluster.mk 0 [index] []))).2.reverse := by
    rw [← hres]
  have hKentry : ∀ K, 1 ≤ K → K ≤ data.length →
      (res.clustersGivenK.getD K []).length = K ∧
      ((res.clustersGivenK.getD K []).flatten).Perm (List.range data.length) := by
    intro K hK1 hKN
    obtain ⟨K', rfl⟩ : ∃ K', K = K' + 1 := ⟨K - 1, by omega⟩
    have hidx : res.clustersGivenK.getD (K' + 1) [] =
        (clusterLoop
          (fun a b => lk a b (data.map (fun datum => data.map (fun otherDatum => dist datum otherDatum))))
          data.length ((List.range data.length).map (fun index => Cluster.mk 0 [index] []))).2.getD
          (data.length - (K' + 1)) [] := by
      rw [htab]
      simp only [List.getD_cons_succ]
      rw [getD_reverse _ K' [] (by rw [hslen]; omega), hslen]
      have harith : data.length - 1 - K' = data.length - (K' + 1) := by omega
      rw [harith]
    obtain ⟨hL, hP⟩ := hent (data.length - (K' + 1)) (by omega)
    rw [initial_map_indexes, flatten_map_singleton] at hP
    rw [hidx, hL]
    exact ⟨by omega, hP⟩
  refine ⟨hN1, ?_, ?_, hKentry, ?_⟩
  · rw [htab]
    simp [hslen]
  · rw [htab]
    rfl
  · have hidxN : res.clustersGivenK.getD data.length [] =
        (clusterLoop
          (fun a b => lk a b (data.map (fun datum => data.map (fun otherDatum => dist datum otherDatum))))
          data.length ((List.range data.length).map (fun index => Cluster.mk 0 [index] []))).2.getD 0 [] := by
      rw [htab, getD_cons_pos _ _ _ _ hN1,
        getD_reverse _ _ _ (by rw [hslen]; omega), hslen]
      have harith : data.length - 1 - (data.length - 1) = 0 := by omega
      rw [harith]
    rw [hidxN, hget0, initial_map_indexes]

lemma clusterData_ex : clusterData dataEx distEx lkEx = some resEx := rfl

/-! ## Claim theorems -/

/-- C1: In every merge iteration of `clusterData` with at least two live
clusters (one `mergeStep` of its loop, applied to any working collection),
the selected pair `(r, c)` with `r < c` attains the minimum linkage value over
all unordered pairs `row < col` of live clusters; ties are resolved to the
first pair encountered in row-major scan order, since a later pair replaces
the current candidate only when its linkage value is strictly smaller; and the
merged cluster appended after splicing out the two selected clusters has
`indexes` = row cluster's indexes ++ col cluster's indexes, `height` = the
selected linkage value, and `children` = exactly the two selected clusters. -/
theorem mergeStep_selects_minimal_pair (lk : List ℕ → List ℕ → ℚ)
    (clusters : List Cluster) (h2 : 2 ≤ clusters.length) :
    ∃ r c, r < c ∧ c < clusters.length ∧
      findNearest lk clusters =
        some (lk (clusterIndexesAt clusters r) (clusterIndexesAt clusters c), (r, c)) ∧
      (∀ r' c', r' < c' → c' < clusters.length →
        lk (clusterIndexesAt clusters r) (clusterIndexesAt clusters c) ≤
          lk (clusterIndexesAt clusters r') (clusterIndexesAt clusters c')) ∧
      (∀ r' c', r' < c' → c' < clusters.length →
        lk (clusterIndexesAt clusters r') (clusterIndexesAt clusters c') =
          lk (clusterIndexesAt clusters r) (clusterIndexesAt clusters c) →
        (r' = r ∧ c' = c) ∨ lexLt (r, c) (r', c')) ∧
      mergeStep lk clusters =
        ((clusters.eraseIdx c).eraseIdx r) ++
          [Cluster.mk (lk (clusterIndexesAt clusters r) (clusterIndexesAt clusters c))
            (clusterIndexesAt clusters r ++ clusterIndexesAt clusters c)
            [clusters.getD r emptyCluster, clusters.getD c emptyCluster]] :=
  mergeStep_spec lk clusters h2

theorem mergeStep_selects_minimal_pair_witness :
    2 ≤ clustersEx.length ∧
    ∃ r c, r < c ∧ c < clustersEx.length ∧
      findNearest lkPairEx clustersEx =
        some (lkPairEx (clusterIndexesAt clustersEx r) (clusterIndexesAt clustersEx c), (r, c)) ∧
      (∀ r' c', r' < c' → c' < clustersEx.length →
        lkPairEx (clusterIndexesAt clustersEx r) (clusterIndexesAt clustersEx c) ≤
          lkPairEx (clusterIndexesAt clustersEx r') (clusterIndexesAt clustersEx c')) ∧
      (∀ r' c', r' < c' → c' < clustersEx.length →
        lkPairEx (clusterIndexesAt clustersEx r') (clusterIndexesAt clustersEx c') =
          lkPairEx (clusterIndexesAt clustersEx r) (clusterIndexesAt clustersEx c) →
        (r' = r ∧ c' = c) ∨ lexLt (r, c) (r', c')) ∧
      mergeStep lkPairEx clustersEx =
        ((clustersEx.eraseIdx c).eraseIdx r) ++
          [Cluster.mk (lkPairEx (clusterIndexesAt clustersEx r) (clusterIndexesAt clustersEx c))
            (clusterIndexesAt clustersEx r ++ clusterIndexesAt clustersEx c)
            [clustersEx.getD r emptyCluster, clustersEx.getD c emptyCluster]] :=
  ⟨by decide, mergeStep_selects_minimal_pair lkPairEx clustersEx (by decide)⟩

/-- C2: For every input and every `K` in `1..N` (`N` = number of records),
entry `K` of the partition table returned by `clusterData` is an exact
partition of `{0, …, N-1}`: the concatenation of its index sets is a
permutation of `0..N-1`, so every original index occurs exactly once. -/
theorem clusterData_partition_at_K (data : List (List ℚ)) (dist : List ℚ → List ℚ → ℚ)
    (lk : List ℕ → List ℕ → List (List ℚ) → ℚ) (res : ClusterResult) (K : ℕ)
    (hres : clusterData data dist lk = some res) (hK1 : 1 ≤ K) (hKN : K ≤ data.length) :
    ((res.clustersGivenK.getD K []).flatten).Perm (List.range data.length) :=
  ((clusterData_table data dist lk res hres).2.2.2.1 K hK1 hKN).2

theorem clusterData_partition_at_K_witness :
    clusterData dataEx distEx lkEx = some resEx ∧ 1 ≤ 1 ∧ 1 ≤ dataEx.length ∧
    ((resEx.clustersGivenK.getD 1 []).flatten).Perm (List.range dataEx.length) :=
  ⟨clusterData_ex, le_refl 1, by decide,
    clusterData_partition_at_K dataEx distEx lkEx resEx 1 clusterData_ex (le_refl 1) (by decide)⟩

/-- C3: For every input on which `clusterData` returns, the partition table
has exactly `N + 1` entries; entry `0` is empty, entry `K` for `K` in `1..N`
contains exactly `K` index sets, entry `N` is the `N` singleton sets, and
entry `1` is a single set containing all `N` indexes. -/
theorem clusterData_table_shape (data : List (List ℚ)) (dist : List ℚ → List ℚ → ℚ)
    (lk : List ℕ → List ℕ → List (List ℚ) → ℚ) (res : ClusterResult)
    (hres : clusterData data dist lk = some res) :
    res.clustersGivenK.length = data.length + 1 ∧
    res.clustersGivenK.getD 0 [] = [] ∧
    (∀ K, 1 ≤ K → K ≤ data.length → (res.clustersGivenK.getD K []).length = K) ∧
    res.clustersGivenK.getD data.length [] = (List.range data.length).map (fun i => [i]) ∧
    (res.clustersGivenK.getD 1 []).length = 1 ∧
    ((res.clustersGivenK.getD 1 []).flatten).Perm (List.range data.length) := by
  obtain ⟨hN1, hlen, h0, hK, hN⟩ := clusterData_table data dist lk res hres
  exact ⟨hlen, h0, fun K h1 h2 => (hK K h1 h2).1, hN, (hK 1 (le_refl 1) hN1).1,
    (hK 1 (le_refl 1) hN1).2⟩

theorem clusterData_table_shape_witness :
    clusterData dataEx distEx lkEx = some resEx ∧
    (resEx.clustersGivenK.length = dataEx.length + 1 ∧
      resEx.clustersGivenK.getD 0 [] = [] ∧
      (∀ K, 1 ≤ K → K ≤ dataEx.length → (resEx.clustersGivenK.getD K []).length = K) ∧
      resEx.clustersGivenK.getD dataEx.length [] =
        (List.range dataEx.length).map (fun i => [i]) ∧
      (resEx.clustersGivenK.getD 1 []).length = 1 ∧
      ((resEx.clustersGivenK.getD 1 []).flatten).Perm (List.range dataEx.length)) :=
  ⟨clusterData_ex, clusterData_table_shape dataEx distEx lkEx resEx clusterData_ex⟩

/-- C4: The claim states that `clusterData` on zero records returns a
well-defined empty result; the source instead reads `clusters[0].indexes` on
an empty working collection, which throws a `TypeError` — the run fails, here
visible as the `none` outcome for the empty input. -/
theorem clusterData_empty_input_fails (dist : List ℚ → List ℚ → ℚ)
    (lk : List ℕ → List ℕ → List (List ℚ) → ℚ) :
    clusterData [] dist lk = none := rfl

lemma length_cast_ne_zero {α : Type} (l : List α) (h : l ≠ []) : ((l.length : ℚ)) ≠ 0 := by
  have hlen : l.length ≠ 0 := fun h0 => h (List.length_eq_zero.mp h0)
  exact_mod_cast hlen

/-- C7: For non-empty index sets, `averageDistance` is the arithmetic mean:
the double-loop sum of `distances[a][b]` over `a ∈ setA, b ∈ setB`, divided by
`|setA| * |setB|` (the source divides by the two lengths in sequence). -/
theorem averageDistance_mean (setA setB : List ℕ) (M : List (List ℚ))
    (hA : setA ≠ []) (hB : setB ≠ []) :
    averageDistance setA setB M =
      some ((setA.map (fun a => (setB.map (fun b => mGet M a b)).sum)).sum /
        ((setA.length : ℚ) * (setB.length : ℚ))) := by
  have hA0 := length_cast_ne_zero setA hA
  have hB0 := length_cast_ne_zero setB hB
  rw [averageDistance]
  simp only [jsDiv, if_neg hA0, Option.some_bind, if_neg hB0, div_div]

theorem averageDistance_mean_witness :
    ([0] : List ℕ) ≠ [] ∧ ([1] : List ℕ) ≠ [] ∧
    averageDistance [0] [1] [[0, 0], [0, 0]] =
      some ((([0] : List ℕ).map
        (fun a => (([1] : List ℕ).map (fun b => mGet [[0, 0], [0, 0]] a b)).sum)).sum /
        (((([0] : List ℕ).length : ℚ)) * ((([1] : List ℕ).length : ℚ)))) :=
  ⟨by decide, by decide,
    averageDistance_mean [0] [1] [[0, 0], [0, 0]] (by decide) (by decide)⟩

/-- C10: `averageDistance` yields a non-real value (`NaN`, from the
accumulated sum `0` divided by a zero length) exactly when one of the index
sets is empty: the divisions by the set lengths are unguarded, so the function
is real-valued precisely under the precondition that both sets are
non-empty. -/
theorem averageDistance_empty_not_real (setA setB : List ℕ) (M : List (List ℚ)) :
    averageDistance setA setB M = none ↔ (setA = [] ∨ setB = []) := by
  rw [averageDistance]
  rcases eq_or_ne setA [] with hA | hA
  · subst hA
    simp [jsDiv]
  · have hA0 := length_cast_ne_zero setA hA
    rcases eq_or_ne setB [] with hB | hB
    · subst hB
      simp [jsDiv, hA0]
    · have hB0 := length_cast_ne_zero setB hB
      simp only [jsDiv, if_neg hA0, Option.some_bind, if_neg hB0]
      simp [hA, hB]

/-- C5 (corrected): the source rejects `K <= 0 || K >= clustersGivenK.length`
where the table has `N + 1` entries, so the valid range is `1..N` (not the
claimed `1..N-1`): `null` exactly when `K = 0` or `K > N`, and every `K` in
`1..N` (including `K = N`) yields the sum over the clusters at level `K` of
the mean pairwise distance inside each cluster (`0` for clusters with at most
one member, otherwise the pair sum divided by `len.choose 2` pairs). -/
theorem calculateWithinClusterVariance_range (table : List (List (List ℕ)))
    (M : List (List ℚ)) (N : ℕ) (hlen : table.length = N + 1) :
    (∀ K : ℕ, calculateWithinClusterVariance table M K = none ↔ (K = 0 ∨ N < K)) ∧
    (∀ K : ℕ, 1 ≤ K → K ≤ N →
      calculateWithinClusterVariance table M K =
        some (((table.getD K []).map (fun c =>
          if c.length ≤ 1 then 0
          else ((scanPairs c.length).map
            (fun ij => mGet M (c.getD ij.1 0) (c.getD ij.2 0))).sum /
              ((c.length.choose 2 : ℕ) : ℚ))).sum)) := by
  constructor
  · intro K
    rw [calculateWithinClusterVariance, hlen]
    by_cases h : K = 0 ∨ N + 1 ≤ K
    · rw [if_pos h]
      exact iff_of_true rfl (by omega)
    · rw [if_neg h]
      exact iff_of_false (by simp) (by omega)
  · intro K hK1 hKN
    rw [calculateWithinClusterVariance, hlen, if_neg (by omega)]
    congr 1
    congr 1
    apply List.map_congr_left
    intro c _
    rw [calculateClusterVariance]
    by_cases hc : c.length ≤ 1
    · rw [if_pos hc, if_pos hc]
    · rw [if_neg hc, if_neg hc, length_scanPairs]
      rfl

theorem calculateWithinClusterVariance_range_witness :
    ([[], [[0, 1]], [[0], [1]]] : List (List (List ℕ))).length = 2 + 1 ∧
    (calculateWithinClusterVariance [[], [[0, 1]], [[0], [1]]] [[0, 1], [1, 0]] 0 = none ↔
      ((0 : ℕ) = 0 ∨ 2 < 0)) :=
  ⟨by decide,
    (calculateWithinClusterVariance_range [[], [[0, 1]], [[0], [1]]] [[0, 1], [1, 0]] 2
      (by decide)).1 0⟩

/-- C5, counterexample to the claimed range: with `N = 2` records the table
has `3` entries, and at `K = N = 2` — outside the claimed valid range
`[1, N-1] = [1, 1]` — the source does NOT return `null`: the `K >=
clustersGivenK.length` check only rejects `K ≥ N + 1`. -/
theorem calculateWithinClusterVariance_some_at_N :
    calculateWithinClusterVariance [[], [[0, 1]], [[0], [1]]] [[0, 1], [1, 0]] 2 ≠ none := by
  rw [calculateWithinClusterVariance]
  norm_num
  exact Option.some_ne_none _

lemma cast_range_map_sum (f : ℕ → ℚ) (n : ℕ) :
    ((((List.range n).map f).sum : ℚ) : ℝ) = ∑ i ∈ Finset.range n, ((f i : ℚ) : ℝ) := by
  induction n with
  | zero => simp
  | succ m ih =>
    rw [List.range_succ, List.map_append, List.sum_append, Finset.sum_range_succ, ← ih]
    push_cast
    simp

lemma getD_append_left {α : Type} (l₁ l₂ : List α) (i : ℕ) (d : α) (h : i < l₁.length) :
    (l₁ ++ l₂).getD i d = l₁.getD i d := by
  rw [List.getD_eq_getElem _ _ (by rw [List.length_append]; omega),
    List.getElem_append_left h, List.getD_eq_getElem _ _ h]

/-- C8: `euclideanDistance` is the square root of the sum of squared
coordinate differences over the shared prefix `0 ≤ i < min |a| |b|`; it never
requires equal lengths and silently truncates to the shorter vector, so
trailing elements of the longer vector (here, appending `c` to the
already-no-shorter `b`) have no effect on the result. -/
theorem euclideanDistance_spec (a b c : List ℚ) :
    euclideanDistance a b =
      Real.sqrt (∑ i ∈ Finset.range (min a.length b.length),
        (((a.getD i 0 : ℚ) : ℝ) - ((b.getD i 0 : ℚ) : ℝ)) ^ 2) ∧
    (a.length ≤ b.length → euclideanDistance a (b ++ c) = euclideanDistance a b) := by
  constructor
  · rw [euclideanDistance]
    congr 1
    rw [euclideanSum, cast_range_map_sum]
    apply Finset.sum_congr rfl
    intro i _
    push_cast
    ring
  · intro hab
    rw [euclideanDistance, euclideanDistance]
    have hsum : euclideanSum a (b ++ c) = euclideanSum a b := by
      have hmin1 : min a.length (b ++ c).length = a.length := by
        rw [List.length_append]
        omega
      have hmin2 : min a.length b.length = a.length := by omega
      rw [euclideanSum, euclideanSum, hmin1, hmin2]
      congr 1
      apply List.map_congr_left
      intro i hi
      rw [List.mem_range] at hi
      rw [getD_append_left _ _ _ _ (by omega)]
    rw [hsum]

theorem euclideanDistance_spec_witness :
    ([1, 2] : List ℚ).length ≤ ([1, 2] : List ℚ).length ∧
    euclideanDistance [1, 2] ([1, 2] ++ [5]) = euclideanDistance [1, 2] [1, 2] :=
  ⟨by decide, (euclideanDistance_spec [1, 2] [1, 2] [5]).2 (by decide)⟩

/-! ## Helper lemmas: the strictly-greater fold keeps a maximum -/

lemma foldl_updateMax (g : ℕ → ℝ) :
    ∀ (l : List ℕ) (m₀ : ℝ) (k₀ : ℕ),
      ∃ m k, l.foldl (fun acc i => if g i > acc.1 then (g i, i) else acc) (m₀, k₀) = (m, k) ∧
        m₀ ≤ m ∧ (∀ i ∈ l, g i ≤ m) ∧ ((m = m₀ ∧ k = k₀) ∨ (k ∈ l ∧ m = g k)) := by
  intro l
  induction l with
  | nil =>
    intro m₀ k₀
    exact ⟨m₀, k₀, rfl, le_refl _, by simp, Or.inl ⟨rfl, rfl⟩⟩
  | cons a t ih =>
    intro m₀ k₀
    rw [List.foldl_cons]
    by_cases h : g a > m₀
    · rw [if_pos h]
      obtain ⟨m, k, heq, hge, hall, hcase⟩ := ih (g a) a
      refine ⟨m, k, heq, le_trans (le_of_lt h) hge, ?_, ?_⟩
      · intro i hi
        rcases List.mem_cons.mp hi with hi | hi
        · subst hi; exact hge
        · exact hall i hi
      · rcases hcase with ⟨hm, hk⟩ | ⟨hk, hm⟩
        · exact Or.inr ⟨by rw [hk]; exact List.mem_cons_self a t, by rw [hk, hm]⟩
        · exact Or.inr ⟨List.mem_cons_of_mem a hk, hm⟩
    · rw [if_neg h]
      obtain ⟨m, k, heq, hge, hall, hcase⟩ := ih m₀ k₀
      refine ⟨m, k, heq, hge, ?_, ?_⟩
      · intro i hi
        rcases List.mem_cons.mp hi with hi | hi
        · subst hi; exact le_trans (not_lt.mp h) hge
        · exact hall i hi
      · rcases hcase with hc | hc
        · exact Or.inl hc
        · exact Or.inr ⟨List.mem_cons_of_mem a hc.1, hc.2⟩

lemma elbowNum_first (v : List ℚ) : elbowNum v 1 = 0 := by
  simp only [elbowNum]
  push_cast
  ring

lemma elbowDistance_first (v : List ℚ) : elbowDistance v 1 = 0 := by
  rw [elbowDistance, elbowNum_first]
  simp

lemma elbowNum_last_of_two (v : List ℚ) (h : v.length = 2) : elbowNum v 2 = 0 := by
  simp only [elbowNum, h]
  push_cast
  ring

/-- C6: `findElbowPoint` on `N` variance values returns the 1-based `K`
attaining the maximum perpendicular distance (`elbowDistance`, the source's
two-point line formula value) to the line through the first point
`(1, variances[0])` and the last point `(N, variances[N-1])`; for fewer than
3 points the result degenerates to `K = 1`. -/
theorem findElbowPoint_spec (v : List ℚ) :
    (v.length < 3 → findElbowPoint v = 1) ∧
    1 ≤ findElbowPoint v ∧ findElbowPoint v ≤ max 1 v.length ∧
    (∀ K, 1 ≤ K → K ≤ v.length →
      elbowDistance v K ≤ elbowDistance v (findElbowPoint v)) := by
  obtain ⟨m, k, heq, hge, hall, hcase⟩ :=
    foldl_updateMax (elbowDistance v) (List.range' 2 (v.length - 1)) 0 1
  have hk : findElbowPoint v = k := by
    rw [findElbowPoint, heq]
  have hdk : elbowDistance v (findElbowPoint v) = m := by
    rw [hk]
    rcases hcase with ⟨hm, hk1⟩ | ⟨_, hm⟩
    · rw [hk1, elbowDistance_first, hm]
    · rw [← hm]
  refine ⟨?_, ?_, ?_, ?_⟩
  · intro h3
    by_cases h1 : v.length ≤ 1
    · have h0 : v.length - 1 = 0 := by omega
      rw [findElbowPoint, h0]
      rfl
    · have h2 : v.length = 2 := by omega
      have hd2 : elbowDistance v 2 = 0 := by
        rw [elbowDistance, elbowNum_last_of_two v h2]
        simp
      rw [findElbowPoint, h2]
      norm_num [List.range'_one, List.foldl_cons, List.foldl_nil, hd2]
  · rcases hcase with ⟨_, hk1⟩ | ⟨hmem, _⟩
    · rw [hk, hk1]
    · rw [hk]
      have := (List.mem_range'_1.mp hmem).1
      omega
  · rcases hcase with ⟨_, hk1⟩ | ⟨hmem, _⟩
    · rw [hk, hk1]
      exact le_max_left 1 v.length
    · rw [hk]
      obtain ⟨h2k, hklt⟩ := List.mem_range'_1.mp hmem
      have : k ≤ v.length := by omega
      omega
  · intro K hK1 hKN
    rw [hdk]
    rcases eq_or_lt_of_le hK1 with hK | hK
    · rw [← hK, elbowDistance_first]
      exact le_trans (le_refl 0) hge
    · refine hall K (List.mem_range'_1.mpr ⟨by omega, by omega⟩)

theorem findElbowPoint_spec_witness :
    1 ≤ 2 ∧ 2 ≤ ([10, 8, 7] : List ℚ).length ∧
    elbowDistance [10, 8, 7] 2 ≤ elbowDistance [10, 8, 7] (findElbowPoint [10, 8, 7]) :=
  ⟨by decide, by decide, (findElbowPoint_spec [10, 8, 7]).2.2.2 2 (by decide) (by decide)⟩

lemma getD_append_right {α : Type} (l₁ l₂ : List α) (i : ℕ) (d : α) (h1 : l₁.length ≤ i)
    (h2 : i < l₁.length + l₂.length) :
    (l₁ ++ l₂).getD i d = l₂.getD (i - l₁.length) d := by
  rw [List.getD_eq_getElem _ _ (by rw [List.length_append]; omega),
    List.getElem_append_right h1, List.getD_eq_getElem _ _ (by omega)]

/-- Exact value of the `i`-th progress report when `N ≥ 2`: matrix-phase rows
report `(index / (N-1)) / 2`, merge-phase iterations report
`1/2 + (iteration + 1) / (2N)`. -/
lemma progressSequence_getD (N : ℕ) (hN : 2 ≤ N) (i : ℕ) (hi : i < 2 * N) :
    (progressSequence N).getD i none =
      if i < N then some (((i : ℚ) / ((N : ℚ) - 1)) / 2)
      else some ((1 : ℚ) / 2 + (((i - N : ℕ) : ℚ) + 1) / ((N : ℚ) * 2)) := by
  have h2 : (2 : ℚ) ≤ (N : ℚ) := by exact_mod_cast hN
  have hN1 : ((N : ℚ) - 1) ≠ 0 := by
    intro h
    rw [sub_eq_zero] at h
    rw [h] at h2
    norm_num at h2
  have hN0 : ((N : ℚ)) ≠ 0 := by
    intro h
    rw [h] at h2
    norm_num at h2
  by_cases h : i < N
  · rw [if_pos h, progressSequence, getD_append_left _ _ _ _ (by simp [h])]
    have hval : ((List.range N).map
        (fun (index : ℕ) => updateProgressVal 0 (jsDiv (index : ℚ) ((N : ℚ) - 1)))).getD i none =
        updateProgressVal 0 (jsDiv (i : ℚ) ((N : ℚ) - 1)) := by
      rw [List.getD_eq_getElem _ _ (by simp [h]), List.getElem_map, List.getElem_range]
    rw [hval, updateProgressVal, jsDiv, if_neg hN1]
    simp only [Option.map_some']
    norm_num
  · rw [if_neg h, progressSequence,
      getD_append_right _ _ _ _ (by simp; omega) (by simp; omega)]
    have hlen : ((List.range N).map
        (fun (index : ℕ) => updateProgressVal 0 (jsDiv (index : ℚ) ((N : ℚ) - 1)))).length = N := by
      simp
    rw [hlen]
    have hj : i - N < N := by omega
    have hval : ((List.range N).map
        (fun (iteration : ℕ) => updateProgressVal 1 (jsDiv ((iteration : ℚ) + 1) (N : ℚ)))).getD
          (i - N) none =
        updateProgressVal 1 (jsDiv (((i - N : ℕ) : ℚ) + 1) (N : ℚ)) := by
      rw [List.getD_eq_getElem _ _ (by simp [hj]), List.getElem_map, List.getElem_range]
    rw [hval, updateProgressVal, jsDiv, if_neg hN0]
    simp only [Option.map_some']
    rw [div_div]
    norm_num

/-- C9 (corrected to inputs with `N ≥ 2` records): every value the unnamed
variant's `clusterData` passes to `onProgress` is a real number in `[0, 1]`,
the sequence is strictly increasing, the `N` matrix-build reports lie in
`[0, 1/2]`, the `N` merge-loop reports lie in `(1/2, 1]`, and the final
report is exactly `1`.  (At `N = 1` the first report is `0/0`, i.e. `NaN` —
see the counterexample theorem.) -/
theorem progressSequence_monotone_unit (N : ℕ) (hN : 2 ≤ N) :
    (progressSequence N).length = 2 * N ∧
    (∀ i, i < 2 * N → ∃ q : ℚ, (progressSequence N).getD i none = some q ∧ 0 ≤ q ∧ q ≤ 1) ∧
    (∀ i, i < N → ∃ q : ℚ, (progressSequence N).getD i none = some q ∧ 0 ≤ q ∧ q ≤ 1 / 2) ∧
    (∀ i, N ≤ i → i < 2 * N → ∃ q : ℚ,
      (progressSequence N).getD i none = some q ∧ 1 / 2 < q ∧ q ≤ 1) ∧
    (∀ i j, i < j → j < 2 * N → ∃ qi qj : ℚ,
      (progressSequence N).getD i none = some qi ∧
      (progressSequence N).getD j none = some qj ∧ qi < qj) ∧
    (progressSequence N).getD (2 * N - 1) none = some 1 := by
  have h2 : (2 : ℚ) ≤ (N : ℚ) := by exact_mod_cast hN
  have hn : (0 : ℚ) < (N : ℚ) := by linarith
  have hd : (0 : ℚ) < (N : ℚ) - 1 := by linarith
  have hN0 : ((N : ℚ)) ≠ 0 := ne_of_gt hn
  have hmat : ∀ i, i < N →
      (progressSequence N).getD i none = some (((i : ℚ) / ((N : ℚ) - 1)) / 2) := by
    intro i hi
    rw [progressSequence_getD N hN i (by omega), if_pos hi]
  have hmer : ∀ i, N ≤ i → i < 2 * N →
      (progressSequence N).getD i none =
        some ((1 : ℚ) / 2 + (((i - N : ℕ) : ℚ) + 1) / ((N : ℚ) * 2)) := by
    intro i h1 h2'
    rw [progressSequence_getD N hN i h2', if_neg (by omega)]
  have hmat0 : ∀ i : ℕ, (0 : ℚ) ≤ ((i : ℚ) / ((N : ℚ) - 1)) / 2 := by
    intro i
    positivity
  have hmatle : ∀ i, i < N → ((i : ℚ) / ((N : ℚ) - 1)) / 2 ≤ 1 / 2 := by
    intro i hi
    have hile : (i : ℚ) ≤ (N : ℚ) - 1 := by
      have : (i : ℚ) + 1 ≤ (N : ℚ) := by exact_mod_cast Nat.succ_le_of_lt hi
      linarith
    have := (div_le_one hd).mpr hile
    linarith
  have hmerpos : ∀ i : ℕ, (0 : ℚ) < (((i - N : ℕ) : ℚ) + 1) / ((N : ℚ) * 2) := by
    intro i
    apply div_pos
    · have : (0 : ℚ) ≤ ((i - N : ℕ) : ℚ) := Nat.cast_nonneg _
      linarith
    · linarith
  have hmerle : ∀ i, i < 2 * N →
      (1 : ℚ) / 2 + (((i - N : ℕ) : ℚ) + 1) / ((N : ℚ) * 2) ≤ 1 := by
    intro i hi
    have hle : (((i - N : ℕ) : ℚ) + 1) ≤ (N : ℚ) := by
      have : (i - N : ℕ) + 1 ≤ N := by omega
      exact_mod_cast this
    have : (((i - N : ℕ) : ℚ) + 1) / ((N : ℚ) * 2) ≤ 1 / 2 := by
      rw [div_le_iff₀ (by linarith)]
      linarith
    linarith
  refine ⟨?_, ?_, ?_, ?_, ?_, ?_⟩
  · simp [progressSequence, two_mul]
  · intro i hi
    by_cases hiN : i < N
    · exact ⟨_, hmat i hiN, hmat0 i, by have := hmatle i hiN; linarith⟩
    · refine ⟨_, hmer i (by omega) hi, ?_, hmerle i hi⟩
      have := hmerpos i
      linarith
  · intro i hi
    exact ⟨_, hmat i hi, hmat0 i, hmatle i hi⟩
  · intro i h1 h2'
    refine ⟨_, hmer i h1 h2', ?_, hmerle i h2'⟩
    have := hmerpos i
    linarith
  · intro i j hij hj
    by_cases hiN : i < N
    · by_cases hjN : j < N
      · refine ⟨_, _, hmat i hiN, hmat j hjN, ?_⟩
        have hcast : (i : ℚ) < (j : ℚ) := by exact_mod_cast hij
        have := div_lt_div_of_pos_right hcast hd
        linarith
      · refine ⟨_, _, hmat i hiN, hmer j (by omega) hj, ?_⟩
        have := hmatle i hiN
        have := hmerpos j
        linarith
    · refine ⟨_, _, hmer i (by omega) (by omega), hmer j (by omega) hj, ?_⟩
      have hcast : ((i - N : ℕ) : ℚ) < ((j - N : ℕ) : ℚ) := by
        have : (i - N : ℕ) < (j - N : ℕ) := by omega
        exact_mod_cast this
      have := div_lt_div_of_pos_right (show ((i - N : ℕ) : ℚ) + 1 < ((j - N : ℕ) : ℚ) + 1 by
        linarith) (show (0 : ℚ) < (N : ℚ) * 2 by linarith)
      linarith
  · rw [hmer (2 * N - 1) (by omega) (by omega)]
    congr 1
    have hcast : ((2 * N - 1 - N : ℕ) : ℚ) = (N : ℚ) - 1 := by
      have heq : (2 * N - 1 - N : ℕ) = N - 1 := by omega
      rw [heq]
      push_cast [show 1 ≤ N by omega]
      ring
    rw [hcast]
    have heq : ((N : ℚ) - 1) + 1 = (N : ℚ) := by ring
    rw [heq]
    field_simp
    ring

theorem progressSequence_monotone_unit_witness :
    2 ≤ 2 ∧ (progressSequence 2).getD (2 * 2 - 1) none = some 1 :=
  ⟨by decide, (progressSequence_monotone_unit 2 (by decide)).2.2.2.2.2⟩

/-- C9, counterexample to the claim at `N = 1`: the single matrix-build
report computes `index / (data.length - 1) = 0 / 0`, i.e. `NaN` — not a real
number in `[0, 1]` — before the merge phase reports `1`. -/
theorem progressSequence_one_not_real : progressSequence 1 = [none, some 1] := by
  rw [progressSequence]
  norm_num [updateProgressVal, jsDiv, show List.range 1 = [0] from rfl]
